import Mathlib

/-!
Verification of the stratified partial-dependence library (stratx/partdep.py).

NaN ("no evidence") is modelled as `none : Option ℚ`; numeric arrays as
`List ℚ` / `List (Option ℚ)`.  Each definition below is a direct translation
of the corresponding Python function from src/stratx/partdep.py.
-/

/-- Source `zero_as_one` (partdep.py line 1497): replace 0 by 1 (division guard). -/
def zero_as_one (a : ℚ) : ℚ := if a = 0 then 1 else a

/-- NaN-propagating addition: `nan + x = nan`. -/
def nanAdd : Option ℚ → Option ℚ → Option ℚ
  | some x, some y => some (x + y)
  | _, _ => none

/-- NaN-propagating subtraction: `nan - x = nan`. -/
def nanSub : Option ℚ → Option ℚ → Option ℚ
  | some x, some y => some (x - y)
  | _, _ => none

/-- Elementwise product of a NaN-carrying vector with a weight vector
(`a * wa` in numpy: `nan * w = nan`). -/
def scaleVec (a : List (Option ℚ)) (w : List ℚ) : List (Option ℚ) :=
  List.zipWith (fun x c => x.map (fun q => q * c)) a w

/-- Source `nanavg_vectors` (partdep.py lines 1469-1483), with vector weights as used
by `avg_values_at_cat`: first the vectorized weighted average
`c = (a*wa + b*wb) / zero_as_one (wa+wb)`, then the two mask assignments
`c[a_nan] = b[a_nan]` and `c[in_a_not_b] = a[in_a_not_b]`. -/
def nanavg_vectors (a b : List (Option ℚ)) (wa wb : List ℚ) : List (Option ℚ) :=
  let c0 := List.zipWith (fun x d => x.map (fun q => q / zero_as_one d))
      (List.zipWith nanAdd (scaleVec a wa) (scaleVec b wb))
      (List.zipWith (fun u v => u + v) wa wb)
  let c1 := List.zipWith (fun x p => if x.isNone then p.1 else p.2) a (b.zip c0)
  List.zipWith (fun p c => if p.1.isSome ∧ p.2.isNone then p.1 else c) (a.zip b) c1

/-- The elementwise behaviour `nanavg_vectors` is claimed to have:
both present → guarded weighted average, one present → that value,
neither present → no evidence. -/
def navgSpec (x y : Option ℚ) (u v : ℚ) : Option ℚ :=
  match x, y with
  | none, yy => yy
  | some p, none => some p
  | some p, some q => some ((p * u + q * v) / zero_as_one (u + v))


/-- Auxiliary scan of `np.argmax`: scan keeping the first index attaining the
running maximum. -/
def npArgmaxAux : List ℚ → ℕ → ℕ × ℚ → ℕ × ℚ
  | [], _, best => best
  | x :: xs, i, best =>
      npArgmaxAux xs (i + 1) (if best.2 < x then (i, x) else best)

/-- Model of `np.argmax`: index of the first occurrence of the maximum (0 on `[]`). -/
def np_argmax : List ℚ → ℕ
  | [] => 0
  | x :: xs => (npArgmaxAux xs 1 (0, x)).1


/-! ## Categorical stratifier: `avg_values_at_cat` (partdep.py lines 988-1097) -/

/-- Running average vector and its per-category weight
(`catavg`, `catavg_weight`). -/
structure MergeState where
  catavg : List (Option ℚ)
  weight : List ℚ
deriving DecidableEq

/-- Source `are_intersecting = ~np.isnan(catavg) & ~np.isnan(v)` (line 1059). -/
def interVec (a v : List (Option ℚ)) : List Bool :=
  List.zipWith (fun x y => x.isSome && y.isSome) a v

/-- Source `np.where((cur_weight>0) & are_intersecting, cur_weight, 0)` (line 1068). -/
def maskedWeights (w : List ℚ) (inter : List Bool) : List ℚ :=
  List.zipWith (fun ww b => if 0 < ww ∧ b = true then ww else 0) w inter

/-- Source `ix = np.argmax(np.where((cur_weight>0) & are_intersecting, cur_weight, 0))`:
the anchor category for merging one leaf (line 1068). -/
def anchorIx (catavg v : List (Option ℚ)) (w : List ℚ) : ℕ :=
  np_argmax (maskedWeights w (interVec catavg v))

/-- Body of the merge of one leaf column `v` with weights `w` into the running
state (lines 1066-1077): re-reference `v` at the anchor, shift by the running
value there, fuse with `nanavg_vectors`, and accumulate the weights. -/
def mergeOneLeaf (s : MergeState) (v : List (Option ℚ)) (w : List ℚ) : MergeState :=
  let ix := anchorIx s.catavg v w
  let vix := v.getD ix none
  let rel := s.catavg.getD ix none
  let adjusted := v.map (fun x => nanAdd (nanSub x vix) rel)
  { catavg := nanavg_vectors s.catavg adjusted s.weight w
    weight := List.zipWith (fun u c => u + c) s.weight w }

/-- One pass over the work list (the `for j in work` loop, lines 1057-1085):
returns the updated state and the list of merged (completed) leaf indexes.
A leaf whose intersection with the running vector is empty is skipped.
`deltas`/`counts` hold the columns of `leaf_deltas`/`leaf_counts`. -/
def mergePass (deltas : List (List (Option ℚ))) (counts : List (List ℚ)) :
    MergeState → List ℕ → MergeState × List ℕ
  | s, [] => (s, [])
  | s, j :: rest =>
      let v := deltas.getD j []
      let w := counts.getD j []
      if (interVec s.catavg v).any id then
        let s1 := mergeOneLeaf s v w
        let r := mergePass deltas counts s1 rest
        (r.1, j :: r.2)
      else
        mergePass deltas counts s rest

/-- The `while` loop with condition `len(work)>0 and len(completed)>0 and iteration<=max_iter`
(lines 1050-1087); the fuel is the remaining number of allowed passes.
Returns the final state together with the leaf indexes left unmerged. -/
def mergeLoop (deltas : List (List (Option ℚ))) (counts : List (List ℚ)) :
    ℕ → MergeState → List ℕ → MergeState × List ℕ
  | 0, s, work => (s, work)
  | fuel + 1, s, work =>
      if work = [] then (s, work)
      else
        let r := mergePass deltas counts s work
        if r.2 = [] then (r.1, work)
        else mergeLoop deltas counts fuel r.1 (work.filter (fun j => ¬ j ∈ r.2))

/-- Source `avg_values_at_cat(leaf_deltas, leaf_counts, max_iter)` (lines 988-1097).
The running vector starts from the first leaf column; remaining leaves are
merged over at most `max_iter` passes; the counts of leaves never merged are
totalled into `merge_ignored`.  `deltas`/`counts` are given column-major. -/
def avg_values_at_cat (deltas : List (List (Option ℚ))) (counts : List (List ℚ))
    (max_iter : ℕ) : List (Option ℚ) × List ℚ × ℚ :=
  let s0 : MergeState := ⟨deltas.getD 0 [], counts.getD 0 []⟩
  let work := List.range' 1 (deltas.length - 1)
  let r := mergeLoop deltas counts max_iter s0 work
  let merge_ignored := (r.2.map (fun j => (counts.getD j []).sum)).sum
  (r.1.catavg, r.1.weight, merge_ignored)

/-! ## Continuous stratifier: `finite_differences`, `avg_slopes_at_x`, and the
integration step of `partial_dependence` (partdep.py lines 143-193, 503-577,
641-677) -/

/-- Sorted distinct values, as `np.unique` returns them. -/
def npUnique (x : List ℚ) : List ℚ := x.dedup.insertionSort (fun a b => a ≤ b)

/-- Mean of the responses at positions whose x equals `ux`. -/
def meanYat (x y : List ℚ) (ux : ℚ) : ℚ :=
  let vals := ((x.zip y).filter (fun p => p.1 = ux)).map (fun p => p.2)
  vals.sum / vals.length

/-- Source `finite_differences(x, y)` (lines 503-577): group `y` by unique `x`,
average, and take forward-difference slopes over consecutive unique values.
With a single unique `x` value the function returns the placeholder
`(np.array([[0]]), np.array([0.0]))` and ignores all `len(x)` samples.
Ranges are returned as two-element lists `[lo, hi]` (the placeholder being the
one-element list `[0]`). -/
def finite_differences (x y : List ℚ) : List (List ℚ) × List ℚ × ℕ :=
  let uniq_x := npUnique x
  let avg_y := uniq_x.map (meanYat x y)
  if uniq_x.length = 1 then ([[0]], [0], x.length)
  else
    let leaf_slopes := List.zipWith (fun p q => (q.2 - p.2) / (q.1 - p.1))
        (uniq_x.zip avg_y) ((uniq_x.zip avg_y).tail)
    let leaf_xranges := List.zipWith (fun a b => [a, b]) uniq_x uniq_x.tail
    (leaf_xranges, leaf_slopes, 0)

/-- The row of per-segment slope values at one x
(`np.where((uniq_x < xr[0]) | (uniq_x >= xr[1]), np.nan, slope)`, line 656):
a segment contributes iff `lo ≤ x < hi`. -/
def slopesRow (x : ℚ) (ranges : List (ℚ × ℚ)) (slopes : List ℚ) : List (Option ℚ) :=
  List.zipWith (fun r s => if r.1 ≤ x ∧ x < r.2 then some s else none) ranges slopes

/-- Model of `np.nanmean` over one row: NaN when every entry is NaN (lines 670-674). -/
def nanmeanRow (row : List (Option ℚ)) : Option ℚ :=
  let vals := row.filterMap id
  if vals.isEmpty then none else some (vals.sum / vals.length)

/-- Source `avg_slopes_at_x_jit(uniq_x, leaf_ranges, leaf_slopes)` (lines 641-677;
`avg_slopes_at_x_nonparallel_jit`, lines 683-718, computes the same values):
per unique x, the mean of the slopes of the covering segments, and the count
of covering segments. -/
def avg_slopes_at_x (uniq_x : List ℚ) (ranges : List (ℚ × ℚ)) (slopes : List ℚ) :
    List (Option ℚ) × List ℕ :=
  (uniq_x.map (fun x => nanmeanRow (slopesRow x ranges slopes)),
   uniq_x.map (fun x => ((slopesRow x ranges slopes).filterMap id).length))

/-- Evidence thresholding (lines 155-159): `min_slopes_per_x <= 0` is raised
to 1, then slopes with fewer contributing segments become NaN. -/
def slope_at_x_of (uniq_x : List ℚ) (ranges : List (ℚ × ℚ)) (slopes : List ℚ)
    (min_slopes_per_x : ℕ) : List (Option ℚ) :=
  let p := avg_slopes_at_x uniq_x ranges slopes
  let m := if min_slopes_per_x = 0 then 1 else min_slopes_per_x
  List.zipWith (fun s c => if m ≤ c then s else none) p.1 p.2

/-- NaN treated as 0 (the convention of `np.nancumsum`). -/
def nanval : Option ℚ → ℚ
  | none => 0
  | some q => q

/-- Model of `np.nancumsum`: running sums with NaN contributing 0. -/
def nancumsumList (acc : ℚ) : List (Option ℚ) → List ℚ
  | [] => []
  | d :: rest => (acc + nanval d) :: nancumsumList (acc + nanval d) rest

/-- Indexes `i+1` of consecutive slope pairs that are not two NaNs in a row:
`np.where(~(np.isnan(slope_at_x[1:]) & np.isnan(slope_at_x[:-1])))[0] + 1`
(line 186). -/
def adjIdxs : ℕ → List (Option ℚ) → List ℕ
  | i, a :: b :: rest =>
      if a.isNone ∧ b.isNone then adjIdxs (i + 1) (b :: rest)
      else (i + 1) :: adjIdxs (i + 1) (b :: rest)
  | _, _ => []

/-- The retained position list (lines 186-189): positions after two adjacent
NaN slopes are dropped; position 0 is kept iff its slope is not NaN. -/
def keepIdxs (slope_at_x : List (Option ℚ)) : List ℕ :=
  match slope_at_x with
  | [] => []
  | s0 :: _ => if s0.isSome then 0 :: adjIdxs 0 slope_at_x else adjIdxs 0 slope_at_x

/-- Source `y_deltas = dydx * dx` (lines 172-175): `dx = np.diff(pdpx)` and
`dydx = slope_at_x[:-1]`. -/
def y_deltas_of (uniq_x : List ℚ) (slope_at_x : List (Option ℚ)) :
    List (Option ℚ) :=
  List.zipWith (fun s d => s.map (fun q => q * d)) slope_at_x.dropLast
    (List.zipWith (fun b a => b - a) uniq_x.tail uniq_x)

/-- Source `pdpy = np.concatenate([[0], np.nancumsum(y_deltas)])` (lines 176-177),
before the stripping step. -/
def pdpy_full (uniq_x : List ℚ) (slope_at_x : List (Option ℚ)) : List ℚ :=
  0 :: nancumsumList 0 (y_deltas_of uniq_x slope_at_x)

/-- The integration step of `partial_dependence` (lines 171-193): per-interval
deltas `slope * dx`, `np.nancumsum` with a leading 0, then the stripping of
positions without usable slope information.  Returns `(pdpx, pdpy)`. -/
def stratpd_curve (uniq_x : List ℚ) (slope_at_x : List (Option ℚ)) :
    List ℚ × List ℚ :=
  ((keepIdxs slope_at_x).map (fun i => uniq_x.getD i 0),
   (keepIdxs slope_at_x).map (fun i => (pdpy_full uniq_x slope_at_x).getD i 0))

/-- The deterministic core of `partial_dependence` (lines 143-193), as a
function of the aggregated inputs: unique x values, all leaves'
slope segments, and the evidence threshold. -/
def stratPD (uniq_x : List ℚ) (ranges : List (ℚ × ℚ)) (slopes : List ℚ)
    (min_slopes_per_x : ℕ) : List ℚ × List ℚ :=
  stratpd_curve uniq_x (slope_at_x_of uniq_x ranges slopes min_slopes_per_x)

/-- The result check of `plot_stratpd` (lines 376-377, single-trial flow):
an empty `pdpy` raises `ValueError`. -/
def plot_stratpd_check (uniq_x : List ℚ) (ranges : List (ℚ × ℚ))
    (slopes : List ℚ) (min_slopes_per_x : ℕ) : Except String (List ℚ × List ℚ) :=
  let p := stratPD uniq_x ranges slopes min_slopes_per_x
  if p.2 = [] then
    Except.error "No partial dependence y values, often due to value of min_samples_leaf that is too small or min_slopes_per_x that is too large"
  else Except.ok p

/-! ## Leaf partitioner: `leaf_samples` (partdep.py lines 42-60) -/

/-- The groups of one tree: for each distinct leaf id (sorted, as from
`np.unique`), the ascending list of sample indexes mapped to that leaf
(`np.where(leaf_ids[:, t] == id)[0]`). -/
def leafGroupsOfTree (ids : List ℤ) : List (List ℕ) :=
  let uniq_ids := ids.dedup.insertionSort (fun a b => a ≤ b)
  uniq_ids.map (fun id => (List.range ids.length).filter (fun i => ids.getD i 0 = id))

/-- Source `leaf_samples(rf, X_not_col)` (lines 42-60), with the externally trained
ensemble abstracted to its observable output: per tree, the list of leaf ids
of each sample (`rf.apply`'s column for that tree).  The per-tree groups are
concatenated over all trees. -/
def leaf_samples (leaf_ids_by_tree : List (List ℤ)) : List (List ℕ) :=
  (leaf_ids_by_tree.map leafGroupsOfTree).flatten



/-! ## Proof-side notions used to analyse the merge algorithm -/

/-- The numeric value of a present ("non-NaN") entry; 0 when missing. -/
def oval (l : List (Option ℚ)) (k : ℕ) : ℚ := (l.getD k none).getD 0

/-- A vector of length `n` with every category present (no NaN entry). -/
def FullVec (n : ℕ) (l : List (Option ℚ)) : Prop :=
  l.length = n ∧ ∀ k, k < n → (l.getD k none).isSome

/-- Well-formed running state over `n` categories: fully present running
vector and nonnegative weights. -/
def InvSt (n : ℕ) (s : MergeState) : Prop :=
  FullVec n s.catavg ∧ s.weight.length = n ∧ ∀ k, k < n → 0 ≤ s.weight.getD k 0

/-- Folding `mergeOneLeaf` over a list of leaves, each given as a fully
present delta column paired with its uniform per-category sample weight. -/
def mergeFold (n : ℕ) (s : MergeState) (l : List (List (Option ℚ) × ℚ)) :
    MergeState :=
  l.foldl (fun s p => mergeOneLeaf s p.1 (List.replicate n p.2)) s

/-- Total weight contributed by a list of uniform-weight leaves. -/
def wSum (l : List (List (Option ℚ) × ℚ)) : ℚ := (l.map (fun p => p.2)).sum

/-- Total re-referenced contribution of the leaves at category `k`, with the
running vector anchored at value `a0` for category 0. -/
def sSum (a0 : ℚ) (k : ℕ) (l : List (List (Option ℚ) × ℚ)) : ℚ :=
  (l.map (fun p => (oval p.1 k - oval p.1 0 + a0) * p.2)).sum

/-! ## Helper lemmas -/

theorem zipWith_getElem?_eq {α β γ : Type} (f : α → β → γ) :
    ∀ (a : List α) (b : List β) (i : ℕ),
      (List.zipWith f a b)[i]? =
        match a[i]?, b[i]? with
        | some x, some y => some (f x y)
        | _, _ => none
  | [], _, _ => by simp
  | _ :: _, [], _ => by simp
  | x :: xs, y :: ys, 0 => by simp [List.zipWith]
  | x :: xs, y :: ys, i + 1 => by
      simpa [List.zipWith] using zipWith_getElem?_eq f xs ys i

theorem zip_getElem?_eq {α β : Type} (a : List α) (b : List β) (i : ℕ) :
    (a.zip b)[i]? =
      match a[i]?, b[i]? with
      | some x, some y => some (x, y)
      | _, _ => none :=
  zipWith_getElem?_eq Prod.mk a b i

/-- Pointwise description of `nanavg_vectors`: within range, the three
vectorized steps collapse to `navgSpec`. -/
theorem nanavg_vectors_getElem? (a b : List (Option ℚ)) (wa wb : List ℚ)
    (i : ℕ) (ha : i < a.length) (hb : i < b.length)
    (hwa : i < wa.length) (hwb : i < wb.length) :
    (nanavg_vectors a b wa wb)[i]? =
      some (navgSpec a[i] b[i] wa[i] wb[i]) := by
  have gea : a[i]? = some a[i] := List.getElem?_eq_getElem ha
  have geb : b[i]? = some b[i] := List.getElem?_eq_getElem hb
  have gewa : wa[i]? = some wa[i] := List.getElem?_eq_getElem hwa
  have gewb : wb[i]? = some wb[i] := List.getElem?_eq_getElem hwb
  unfold nanavg_vectors scaleVec
  simp only [zipWith_getElem?_eq, zip_getElem?_eq, gea, geb, gewa, gewb]
  rcases a[i] with _ | x <;> rcases b[i] with _ | y <;>
    simp [navgSpec, nanAdd]

theorem npArgmaxAux_ge_init :
    ∀ (xs : List ℚ) (i : ℕ) (b : ℕ × ℚ), b.2 ≤ (npArgmaxAux xs i b).2
  | [], _, _ => le_refl _
  | x :: xs, i, b => by
      have h := npArgmaxAux_ge_init xs (i + 1) (if b.2 < x then (i, x) else b)
      by_cases hx : b.2 < x
      · simp only [npArgmaxAux, if_pos hx] at h ⊢
        exact le_trans (le_of_lt hx) h
      · simpa [npArgmaxAux, if_neg hx] using h

theorem npArgmaxAux_ge_elem :
    ∀ (xs : List ℚ) (i : ℕ) (b : ℕ × ℚ) (j : ℕ), j < xs.length →
      xs.getD j 0 ≤ (npArgmaxAux xs i b).2
  | x :: xs, i, b, 0, _ => by
      have h := npArgmaxAux_ge_init xs (i + 1) (if b.2 < x then (i, x) else b)
      by_cases hx : b.2 < x
      · simpa [npArgmaxAux, if_pos hx] using h
      · push_neg at hx
        simp only [npArgmaxAux, if_neg (not_lt.mpr hx)] at h ⊢
        simpa using le_trans hx h
  | x :: xs, i, b, j + 1, hj => by
      have h := npArgmaxAux_ge_elem xs (i + 1) (if b.2 < x then (i, x) else b) j
        (by simpa using Nat.lt_of_succ_lt_succ hj)
      simpa [npArgmaxAux] using h

theorem npArgmaxAux_attained :
    ∀ (xs : List ℚ) (i : ℕ) (b : ℕ × ℚ),
      (npArgmaxAux xs i b) = b ∨
      ∃ j, j < xs.length ∧ (npArgmaxAux xs i b).1 = i + j ∧
        (npArgmaxAux xs i b).2 = xs.getD j 0
  | [], _, _ => Or.inl rfl
  | x :: xs, i, b => by
      have h := npArgmaxAux_attained xs (i + 1) (if b.2 < x then (i, x) else b)
      by_cases hx : b.2 < x
      · right
        simp only [npArgmaxAux, if_pos hx] at h ⊢
        rcases h with h | ⟨j, hj, h1, h2⟩
        · exact ⟨0, by simp, by simp [h], by simp [h]⟩
        · exact ⟨j + 1, by simpa using Nat.succ_lt_succ hj, by omega, by simpa using h2⟩
      · simp only [npArgmaxAux, if_neg hx] at h ⊢
        rcases h with h | ⟨j, hj, h1, h2⟩
        · exact Or.inl h
        · exact Or.inr ⟨j + 1, by simpa using Nat.succ_lt_succ hj, by omega, by simpa using h2⟩

/-- The value at the argmax index is the running maximum. -/
theorem np_argmax_spec (l : List ℚ) (hl : l ≠ []) :
    np_argmax l < l.length ∧
    (∀ j, j < l.length → l.getD j 0 ≤ l.getD (np_argmax l) 0) := by
  rcases l with _ | ⟨x, xs⟩
  · exact absurd rfl hl
  · have hatt := npArgmaxAux_attained xs 1 (0, x)
    have hmax0 : x ≤ (npArgmaxAux xs 1 (0, x)).2 := npArgmaxAux_ge_init xs 1 (0, x)
    have hmaxs : ∀ j, j < xs.length → xs.getD j 0 ≤ (npArgmaxAux xs 1 (0, x)).2 :=
      fun j hj => npArgmaxAux_ge_elem xs 1 (0, x) j hj
    have hval : (x :: xs).getD (np_argmax (x :: xs)) 0 = (npArgmaxAux xs 1 (0, x)).2 := by
      rcases hatt with h | ⟨j, hj, h1, h2⟩
      · simp [np_argmax, h]
      · simp [np_argmax, h1, h2, Nat.add_comm 1 j]
    constructor
    · rcases hatt with h | ⟨j, hj, h1, h2⟩
      · simp [np_argmax, h]
      · simp only [np_argmax, h1, List.length_cons]
        omega
    · intro j hj
      rw [hval]
      rcases j with _ | j
      · simpa using hmax0
      · simpa using hmaxs j (by simpa using Nat.lt_of_succ_lt_succ hj)

theorem getD_of_getElem? {α : Type} {l : List α} {i : ℕ} {x : α} (d : α)
    (h : l[i]? = some x) : l.getD i d = x := by
  rw [List.getD_eq_getElem?_getD, h]
  rfl

theorem slopesRow_mem_none (x : ℚ) :
    ∀ (ranges : List (ℚ × ℚ)) (slopes : List ℚ),
      (∀ r ∈ ranges, ¬(r.1 ≤ x ∧ x < r.2)) →
      ∀ e ∈ slopesRow x ranges slopes, e = none
  | [], _, _ => by simp [slopesRow]
  | _ :: _, [], _ => by simp [slopesRow]
  | r :: rs, s :: ss, h => by
      intro e he
      rw [slopesRow, List.zipWith_cons_cons] at he
      rcases List.mem_cons.mp he with rfl | he
      · rw [if_neg (h r (by simp))]
      · exact slopesRow_mem_none x rs ss (fun q hq => h q (by simp [hq])) e he

theorem zero_as_one_ne_zero (t : ℚ) : zero_as_one t ≠ 0 := by
  unfold zero_as_one
  by_cases h : t = 0 <;> simp [h]

/-! ## Claim theorems -/

/-- C1, counterexample: with fully overlapping categories (every category
present in every leaf), merging the leaf columns into the running vector in a
different order produces a different final global vector — value 4 versus 5/7
at category 0 — far beyond floating-point tolerance.  The two calls use the
same initial leaf and the same two remaining leaves, swapped. -/
theorem claim1_counterexample :
    (avg_values_at_cat [[some 0, some 10], [some 0, some 2], [some 0, some 4]]
        [[1, 1], [1, 5], [5, 1]] 3).1 = [some 4, some (68/7)] ∧
    (avg_values_at_cat [[some 0, some 10], [some 0, some 4], [some 0, some 2]]
        [[1, 1], [5, 1], [1, 5]] 3).1 = [some (5/7), some 7] ∧
    (avg_values_at_cat [[some 0, some 10], [some 0, some 2], [some 0, some 4]]
        [[1, 1], [1, 5], [5, 1]] 3).1 ≠
      (avg_values_at_cat [[some 0, some 10], [some 0, some 4], [some 0, some 2]]
        [[1, 1], [5, 1], [1, 5]] 3).1 := by
  refine ⟨?_, ?_, ?_⟩ <;>
    norm_num +decide [avg_values_at_cat, mergeLoop, mergePass, mergeOneLeaf, anchorIx,
      np_argmax, npArgmaxAux, maskedWeights, interVec, nanavg_vectors, scaleVec,
      nanAdd, nanSub, zero_as_one, List.range']

/-- C3, counterexample: on a leaf with exactly one distinct x value,
`finite_differences` does not return empty segment and slope lists; it
returns the placeholder `([[0]], [0.0])`, with all samples ignored. -/
theorem claim3_counterexample :
    (finite_differences [5, 5] [1, 2]).1 = [[0]] ∧
    (finite_differences [5, 5] [1, 2]).2.1 = [0] ∧
    (finite_differences [5, 5] [1, 2]).1 ≠ [] ∧
    (finite_differences [5, 5] [1, 2]).2.1 ≠ [] ∧
    (finite_differences [5, 5] [1, 2]).2.2 = 2 := by
  refine ⟨rfl, rfl, by decide, by decide, rfl⟩

/-- C3, amended: for every leaf whose samples contain exactly one distinct
target value, `finite_differences` returns the one-element placeholder
segment list `[[0]]` and slope list `[0.0]` (never used by its caller, which
skips such leaves beforehand) and reports the whole leaf's sample count as
ignored. -/
theorem claim3_amended (x y : List ℚ) (h : (npUnique x).length = 1) :
    finite_differences x y = ([[0]], [0], x.length) := by
  unfold finite_differences
  simp [h]

theorem claim3_witness :
    (npUnique [5, 5]).length = 1 ∧
    finite_differences [5, 5] [1, 2] = ([[0]], [0], 2) :=
  ⟨by rfl, claim3_amended [5, 5] [1, 2] (by rfl)⟩

/-- C5, counterexample: merging the same leaf (deltas `[0, 2]`, weights
`[1, 1]`) a second time into the running vector changes the running value at
category 1, which was already resolved (6 becomes 14/3). -/
theorem claim5_counterexample :
    ((mergeOneLeaf ⟨[some 0, some 10], [1, 1]⟩ [some 0, some 2] [1, 1]).catavg.getD 1 none
      = some 6) ∧
    ((mergeOneLeaf (mergeOneLeaf ⟨[some 0, some 10], [1, 1]⟩ [some 0, some 2] [1, 1])
        [some 0, some 2] [1, 1]).catavg.getD 1 none = some (14/3)) ∧
    (14 : ℚ)/3 ≠ 6 := by
  refine ⟨?_, ?_, by norm_num⟩ <;>
    norm_num +decide [mergeOneLeaf, anchorIx, np_argmax, npArgmaxAux, maskedWeights,
      interVec, nanavg_vectors, scaleVec, nanAdd, nanSub, zero_as_one]

/-- C6: any input whose thresholded per-x slopes over the unique x values
`[1,2,3,4]` are `[1, 3, NaN, NaN]` integrates to the curve
`pdpx = [1,2,3]`, `pdpy = [0,1,4]`; x = 4 is dropped. -/
theorem claim6 (ranges : List (ℚ × ℚ)) (slopes : List ℚ) (m : ℕ)
    (h : slope_at_x_of [1, 2, 3, 4] ranges slopes m = [some 1, some 3, none, none]) :
    stratPD [1, 2, 3, 4] ranges slopes m = ([1, 2, 3], [0, 1, 4]) := by
  unfold stratPD
  rw [h]
  norm_num +decide [stratpd_curve, keepIdxs, adjIdxs, pdpy_full, y_deltas_of,
    nancumsumList, nanval]

theorem claim6_witness :
    slope_at_x_of [1, 2, 3, 4] [(1, 2), (2, 3)] [1, 3] 1 = [some 1, some 3, none, none] ∧
    stratPD [1, 2, 3, 4] [(1, 2), (2, 3)] [1, 3] 1 = ([1, 2, 3], [0, 1, 4]) := by
  have h : slope_at_x_of [1, 2, 3, 4] [(1, 2), (2, 3)] [1, 3] 1
      = [some 1, some 3, none, none] := by
    norm_num +decide [slope_at_x_of, avg_slopes_at_x, slopesRow, nanmeanRow,
      List.filterMap_cons, List.filterMap_nil]
  exact ⟨h, claim6 [(1, 2), (2, 3)] [1, 3] 1 h⟩

/-- C9: `nanavg_vectors` is elementwise with the claimed missing-data
semantics: both present → weighted average `(a*wa + b*wb)/(wa+wb)`; only one
present → that value unchanged; neither present → no evidence (the third
conjunct covers both `none` cases of `a` at once); the concrete example
`nanavg_vectors [NaN,2] [5,NaN] 1 1 = [5,2]`; and the division guard
`zero_as_one` never returns 0. -/
theorem claim9 :
    (∀ (a b : List (Option ℚ)) (wa wb : List ℚ) (i : ℕ),
        i < a.length → i < b.length → i < wa.length → i < wb.length →
        ∀ (x y : ℚ), a.getD i none = some x → b.getD i none = some y →
          wa.getD i 0 + wb.getD i 0 ≠ 0 →
          (nanavg_vectors a b wa wb).getD i none =
            some ((x * wa.getD i 0 + y * wb.getD i 0) / (wa.getD i 0 + wb.getD i 0)))
  ∧ (∀ (a b : List (Option ℚ)) (wa wb : List ℚ) (i : ℕ),
        i < a.length → i < b.length → i < wa.length → i < wb.length →
        ∀ x : ℚ, a.getD i none = some x → b.getD i none = none →
          (nanavg_vectors a b wa wb).getD i none = some x)
  ∧ (∀ (a b : List (Option ℚ)) (wa wb : List ℚ) (i : ℕ),
        i < a.length → i < b.length → i < wa.length → i < wb.length →
        a.getD i none = none →
          (nanavg_vectors a b wa wb).getD i none = b.getD i none)
  ∧ nanavg_vectors [none, some 2] [some 5, none] [1, 1] [1, 1] = [some 5, some 2]
  ∧ (∀ t : ℚ, zero_as_one t ≠ 0) := by
  refine ⟨?_, ?_, ?_, ?_, zero_as_one_ne_zero⟩
  · intro a b wa wb i ha hb hwa hwb x y hx hy hw
    rw [List.getD_eq_getElem _ _ ha] at hx
    rw [List.getD_eq_getElem _ _ hb] at hy
    rw [List.getD_eq_getElem _ _ hwa, List.getD_eq_getElem _ _ hwb] at hw ⊢
    rw [getD_of_getElem? none (nanavg_vectors_getElem? a b wa wb i ha hb hwa hwb)]
    simp only [navgSpec, hx, hy]
    rw [show zero_as_one (wa[i] + wb[i]) = wa[i] + wb[i] from if_neg hw]
  · intro a b wa wb i ha hb hwa hwb x hx hy
    rw [List.getD_eq_getElem _ _ ha] at hx
    rw [List.getD_eq_getElem _ _ hb] at hy
    rw [getD_of_getElem? none (nanavg_vectors_getElem? a b wa wb i ha hb hwa hwb)]
    simp only [navgSpec, hx, hy]
  · intro a b wa wb i ha hb hwa hwb hx
    rw [List.getD_eq_getElem _ _ ha] at hx
    rw [getD_of_getElem? none (nanavg_vectors_getElem? a b wa wb i ha hb hwa hwb)]
    rw [List.getD_eq_getElem _ _ hb]
    simp only [navgSpec, hx]
  · norm_num +decide [nanavg_vectors, scaleVec, nanAdd, zero_as_one]

theorem claim9_witness :
    (nanavg_vectors [some 3] [some 5] [2] [6]).getD 0 none
      = some ((3 * 2 + 5 * 6) / (2 + 6)) ∧
    (nanavg_vectors [some 4] [none] [1] [1]).getD 0 none = some 4 ∧
    (nanavg_vectors [none] [some 9] [1] [1]).getD 0 none = some 9 :=
  ⟨claim9.1 [some 3] [some 5] [2] [6] 0 (by decide) (by decide) (by decide) (by decide)
      3 5 rfl rfl (by norm_num),
   claim9.2.1 [some 4] [none] [1] [1] 0 (by decide) (by decide) (by decide) (by decide)
      4 rfl rfl,
   claim9.2.2.1 [none] [some 9] [1] [1] 0 (by decide) (by decide) (by decide) (by decide)
      rfl⟩

/-- C10: for one tree of the ensemble, the leaf groups emitted by
`leaf_samples` are pairwise disjoint, and every sample index `i < n` belongs
to some group — so each index appears in exactly one group of that tree. -/
theorem claim10 (ids : List ℤ) :
    List.Pairwise (fun g h => ∀ a ∈ g, a ∉ h) (leafGroupsOfTree ids) ∧
    ∀ i, i < ids.length → ∃ g ∈ leafGroupsOfTree ids, i ∈ g := by
  constructor
  · unfold leafGroupsOfTree
    rw [List.pairwise_map]
    have hnd : (ids.dedup.insertionSort (fun a b => a ≤ b)).Nodup :=
      ((List.perm_insertionSort _ _).nodup_iff).mpr (List.nodup_dedup ids)
    refine List.Pairwise.imp ?_ hnd
    intro c d hcd
    intro i hi hid
    simp only [List.mem_filter, List.mem_range, decide_eq_true_eq] at hi hid
    exact hcd (hi.2 ▸ hid.2)
  · intro i hi
    refine ⟨(List.range ids.length).filter (fun j => ids.getD j 0 = ids.getD i 0),
      ?_, ?_⟩
    · unfold leafGroupsOfTree
      refine List.mem_map.mpr ⟨ids.getD i 0, ?_, rfl⟩
      rw [(List.perm_insertionSort _ _).mem_iff, List.mem_dedup,
        List.getD_eq_getElem _ _ hi]
      exact List.getElem_mem hi
    · simp [List.mem_filter, List.mem_range, hi]

theorem claim10_witness :
    List.Pairwise (fun g h => ∀ a ∈ g, a ∉ h) (leafGroupsOfTree [5, 7, 5]) ∧
    ∃ g ∈ leafGroupsOfTree [5, 7, 5], 2 ∈ g :=
  ⟨(claim10 [5, 7, 5]).1, (claim10 [5, 7, 5]).2 2 (by decide)⟩

/-- C7: at any unique x covered by no segment's half-open range `[lo, hi)`,
`avg_slopes_at_x` yields the NaN marker (not the number 0) and a contributing
count of 0; in particular any x that is at least every segment's right
endpoint — such as the largest unique x — aggregates to NaN. -/
theorem claim7 (uniq_x : List ℚ) (ranges : List (ℚ × ℚ)) (slopes : List ℚ)
    (i : ℕ) (hi : i < uniq_x.length) :
    ((∀ r ∈ ranges, ¬(r.1 ≤ uniq_x.getD i 0 ∧ uniq_x.getD i 0 < r.2)) →
      (avg_slopes_at_x uniq_x ranges slopes).1.getD i (some 0) = none ∧
      (avg_slopes_at_x uniq_x ranges slopes).2.getD i 1 = 0)
  ∧ ((∀ r ∈ ranges, r.2 ≤ uniq_x.getD i 0) →
      (avg_slopes_at_x uniq_x ranges slopes).1.getD i (some 0) = none ∧
      (avg_slopes_at_x uniq_x ranges slopes).2.getD i 1 = 0) := by
  have key : ∀ (hno : ∀ r ∈ ranges, ¬(r.1 ≤ uniq_x.getD i 0 ∧ uniq_x.getD i 0 < r.2)),
      (avg_slopes_at_x uniq_x ranges slopes).1.getD i (some 0) = none ∧
      (avg_slopes_at_x uniq_x ranges slopes).2.getD i 1 = 0 := by
    intro hno
    have hrow : (slopesRow (uniq_x.getD i 0) ranges slopes).filterMap id = [] := by
      rw [List.filterMap_eq_nil]
      intro e he
      exact slopesRow_mem_none (uniq_x.getD i 0) ranges slopes hno e he
    constructor
    · unfold avg_slopes_at_x
      rw [List.getD_eq_getElem _ _ (by simpa using hi), List.getElem_map]
      rw [List.getD_eq_getElem _ _ hi] at hrow
      unfold nanmeanRow
      simp [hrow]
    · unfold avg_slopes_at_x
      rw [List.getD_eq_getElem _ _ (by simpa using hi), List.getElem_map]
      rw [List.getD_eq_getElem _ _ hi] at hrow
      simp [hrow]
  refine ⟨key, fun hmax => key ?_⟩
  intro r hr
  rintro ⟨-, hlt⟩
  exact absurd (lt_of_lt_of_le hlt (hmax r hr)) (lt_irrefl _)

theorem claim7_witness :
    ((avg_slopes_at_x [1, 2] [(1, 2)] [5]).1.getD 1 (some 0) = none ∧
     (avg_slopes_at_x [1, 2] [(1, 2)] [5]).2.getD 1 1 = 0) ∧
    ((avg_slopes_at_x [1, 2] [(1, 2)] [5]).1.getD 1 (some 0) = none ∧
     (avg_slopes_at_x [1, 2] [(1, 2)] [5]).2.getD 1 1 = 0) :=
  ⟨(claim7 [1, 2] [(1, 2)] [5] 1 (by decide)).1 (by decide),
   (claim7 [1, 2] [(1, 2)] [5] 1 (by decide)).2 (by decide)⟩

theorem adjIdxs_head_none :
    ∀ (l : List (Option ℚ)) (i m : ℕ), (adjIdxs i l).head? = some m →
      ∀ k, i < k → k < m → l.getD (k - i) none = none
  | [], i, m => by simp [adjIdxs]
  | [a], i, m => by simp [adjIdxs]
  | a :: b :: rest, i, m => by
      intro h k hik hkm
      by_cases hab : a.isNone ∧ b.isNone
      · rw [show adjIdxs i (a :: b :: rest) = adjIdxs (i + 1) (b :: rest) from by
          simp [adjIdxs, hab]] at h
        rcases Nat.lt_or_ge k (i + 2) with hk2 | hk2
        · have hk1 : k - i = 1 := by omega
          rw [hk1, List.getD_cons_succ, List.getD_cons_zero]
          exact Option.isNone_iff_eq_none.mp hab.2
        · have hbrest := adjIdxs_head_none (b :: rest) (i + 1) m h k (by omega) hkm
          have hsub : k - i = (k - (i + 1)) + 1 := by omega
          rw [hsub, List.getD_cons_succ]
          exact hbrest
      · rw [show adjIdxs i (a :: b :: rest) = (i + 1) :: adjIdxs (i + 1) (b :: rest) from by
          simp only [adjIdxs]; rw [if_neg hab]] at h
        simp only [List.head?_cons, Option.some.injEq] at h
        exact absurd hkm (by omega)

theorem keepIdxs_head_prefix_none (slope : List (Option ℚ)) (m : ℕ)
    (h : (keepIdxs slope).head? = some m) :
    ∀ j, j < m → slope.getD j none = none := by
  intro j hj
  cases slope with
  | nil => simp [keepIdxs] at h
  | cons s0 rest =>
    by_cases hs : s0.isSome
    · simp only [keepIdxs, if_pos hs, List.head?_cons, Option.some.injEq] at h
      exact absurd hj (by omega)
    · simp only [keepIdxs, if_neg hs] at h
      rcases Nat.eq_zero_or_pos j with rfl | hj0
      · rw [List.getD_cons_zero]
        exact Option.not_isSome_iff_eq_none.mp hs
      · have := adjIdxs_head_none (s0 :: rest) 0 m h j (by omega) hj
        simpa using this

theorem nancumsum_getD_if :
    ∀ (l : List (Option ℚ)) (acc : ℚ) (i : ℕ),
      (∀ j, j ≤ i → l.getD j none = none) →
      (nancumsumList acc l).getD i 0 = if i < l.length then acc else 0
  | [], acc, i => by intro h; simp [nancumsumList]
  | d :: rest, acc, i => by
      intro h
      have hd : d = none := by simpa using h 0 (Nat.zero_le i)
      subst hd
      cases i with
      | zero => simp [nancumsumList, nanval]
      | succ i =>
        have ih := nancumsum_getD_if rest (acc + nanval none) i
          (fun j hj => by simpa using h (j + 1) (by omega))
        simp only [nancumsumList]
        rw [List.getD_cons_succ, ih]
        simp [nanval, Nat.succ_lt_succ_iff]

theorem nancumsum_prefix_zero (l : List (Option ℚ)) (i : ℕ)
    (h : ∀ j, j ≤ i → l.getD j none = none) :
    (nancumsumList 0 l).getD i 0 = 0 := by
  rw [nancumsum_getD_if l 0 i h]
  split <;> rfl

theorem y_deltas_getD_none (ux : List ℚ) (sl : List (Option ℚ)) (j : ℕ)
    (h : sl.getD j none = none) : (y_deltas_of ux sl).getD j none = none := by
  by_cases hj : j < (y_deltas_of ux sl).length
  · have hj' := hj
    unfold y_deltas_of at hj'
    rw [List.length_zipWith, lt_min_iff] at hj'
    have hj1 : j < sl.dropLast.length := hj'.1
    have hj2 : j < (List.zipWith (fun b a => b - a) ux.tail ux).length := hj'.2
    have hjsl : j < sl.length := by
      have := List.length_dropLast sl
      omega
    rw [List.getD_eq_getElem _ _ hjsl] at h
    have hsl : sl.dropLast[j]? = some (none : Option ℚ) := by
      rw [List.getElem?_eq_getElem hj1, List.getElem_dropLast, h]
    unfold y_deltas_of
    apply getD_of_getElem?
    rw [zipWith_getElem?_eq, hsl, List.getElem?_eq_getElem hj2]
    simp
  · exact List.getD_eq_default _ _ (by omega)

theorem stratpd_head_zero (ux : List ℚ) (sl : List (Option ℚ))
    (h : (stratpd_curve ux sl).2 ≠ []) :
    ((stratpd_curve ux sl).2).head? = some 0 := by
  unfold stratpd_curve at h ⊢
  simp only at h ⊢
  cases hk : keepIdxs sl with
  | nil => rw [hk] at h; simp at h
  | cons m ks =>
    simp only [List.map_cons, List.head?_cons, Option.some.injEq]
    have hpre : ∀ j, j < m → sl.getD j none = none :=
      keepIdxs_head_prefix_none sl m (by rw [hk]; rfl)
    cases m with
    | zero => simp [pdpy_full]
    | succ m =>
      unfold pdpy_full
      rw [List.getD_cons_succ]
      apply nancumsum_prefix_zero
      intro j hj
      exact y_deltas_getD_none ux sl j (hpre j (by omega))

/-- C2: whenever the continuous partial-dependence computation returns a
non-empty curve, the y value at the first retained x position is exactly 0,
regardless of where leading NaN slopes were dropped. -/
theorem claim2 (uniq_x : List ℚ) (ranges : List (ℚ × ℚ)) (slopes : List ℚ)
    (m : ℕ) (h : (stratPD uniq_x ranges slopes m).2 ≠ []) :
    ((stratPD uniq_x ranges slopes m).2).head? = some 0 :=
  stratpd_head_zero uniq_x (slope_at_x_of uniq_x ranges slopes m) h

theorem claim2_witness :
    (stratPD [1, 2] [(1, 2)] [7] 1).2 ≠ [] ∧
    ((stratPD [1, 2] [(1, 2)] [7] 1).2).head? = some 0 := by
  have hne : (stratPD [1, 2] [(1, 2)] [7] 1).2 ≠ [] := by
    norm_num +decide [stratPD, stratpd_curve, slope_at_x_of, avg_slopes_at_x,
      slopesRow, nanmeanRow, keepIdxs, adjIdxs, pdpy_full, y_deltas_of,
      nancumsumList, nanval, List.filterMap_cons, List.filterMap_nil]
  exact ⟨hne, claim2 [1, 2] [(1, 2)] [7] 1 hne⟩

theorem adjIdxs_all_none :
    ∀ (l : List (Option ℚ)) (i : ℕ), (∀ e ∈ l, e = none) → adjIdxs i l = []
  | [], _, _ => rfl
  | [_], _, _ => rfl
  | a :: b :: rest, i, h => by
      have ha : a = none := h a (by simp)
      have hb : b = none := h b (by simp)
      rw [show adjIdxs i (a :: b :: rest) = adjIdxs (i + 1) (b :: rest) from by
        simp [adjIdxs, ha, hb]]
      exact adjIdxs_all_none (b :: rest) (i + 1)
        (fun e he => h e (List.mem_cons_of_mem a he))

theorem keepIdxs_all_none (sl : List (Option ℚ)) (h : ∀ e ∈ sl, e = none) :
    keepIdxs sl = [] := by
  cases sl with
  | nil => rfl
  | cons s0 rest =>
    have hs0 : s0 = none := h s0 (by simp)
    simp only [keepIdxs]
    rw [if_neg (by simp [hs0])]
    exact adjIdxs_all_none (s0 :: rest) 0 h

theorem slope_at_x_of_all_none (ux : List ℚ) (ranges : List (ℚ × ℚ))
    (slopes : List ℚ) (m : ℕ)
    (h : ∀ i, i < ux.length → ((avg_slopes_at_x ux ranges slopes).2).getD i 0 < m) :
    ∀ e ∈ slope_at_x_of ux ranges slopes m, e = none := by
  intro e he
  unfold slope_at_x_of at he
  rw [List.mem_iff_getElem] at he
  obtain ⟨n, hn, he⟩ := he
  have l1 : ((avg_slopes_at_x ux ranges slopes).1).length = ux.length := by
    simp [avg_slopes_at_x]
  have l2 : ((avg_slopes_at_x ux ranges slopes).2).length = ux.length := by
    simp [avg_slopes_at_x]
  rw [List.length_zipWith, lt_min_iff] at hn
  have hn1 := hn.1
  have hn2 := hn.2
  have hnx : n < ux.length := by omega
  have hc := h n hnx
  rw [List.getD_eq_getElem _ _ hn2] at hc
  have hge : (List.zipWith (fun s c => if (if m = 0 then 1 else m) ≤ c then s else none)
      ((avg_slopes_at_x ux ranges slopes).1) ((avg_slopes_at_x ux ranges slopes).2))[n]? =
      some (if (if m = 0 then 1 else m) ≤ (avg_slopes_at_x ux ranges slopes).2[n]
        then (avg_slopes_at_x ux ranges slopes).1[n] else none) := by
    rw [zipWith_getElem?_eq, List.getElem?_eq_getElem hn1, List.getElem?_eq_getElem hn2]
  rw [List.getElem?_eq_getElem (by rw [List.length_zipWith, lt_min_iff]; exact ⟨hn1, hn2⟩),
    he] at hge
  have : ¬ (if m = 0 then 1 else m) ≤ (avg_slopes_at_x ux ranges slopes).2[n] := by
    by_cases hm : m = 0
    · subst hm; omega
    · simp only [if_neg hm]; omega
  rw [if_neg this] at hge
  exact (Option.some.injEq _ _ ▸ hge).symm ▸ rfl

/-- C4: when the configured minimum evidence exceeds the contributing-segment
count at every unique x, the public partial-dependence operation fails with
the explicit empty-curve `ValueError` of `plot_stratpd` — no partial curve is
returned to the caller. -/
theorem claim4 (uniq_x : List ℚ) (ranges : List (ℚ × ℚ)) (slopes : List ℚ)
    (m : ℕ)
    (h : ∀ i, i < uniq_x.length →
      ((avg_slopes_at_x uniq_x ranges slopes).2).getD i 0 < m) :
    plot_stratpd_check uniq_x ranges slopes m =
      Except.error "No partial dependence y values, often due to value of min_samples_leaf that is too small or min_slopes_per_x that is too large" := by
  have hall := slope_at_x_of_all_none uniq_x ranges slopes m h
  have hkeep : keepIdxs (slope_at_x_of uniq_x ranges slopes m) = [] :=
    keepIdxs_all_none _ hall
  unfold plot_stratpd_check stratPD stratpd_curve
  rw [hkeep]
  simp

theorem claim4_witness :
    plot_stratpd_check [1, 2] [(1, 2)] [7] 5 =
      Except.error "No partial dependence y values, often due to value of min_samples_leaf that is too small or min_slopes_per_x that is too large" :=
  claim4 [1, 2] [(1, 2)] [7] 5 (by decide)

theorem maskedWeights_length (catavg v : List (Option ℚ)) (w : List ℚ)
    (hlc : catavg.length = v.length) (hlw : w.length = v.length) :
    (maskedWeights w (interVec catavg v)).length = v.length := by
  unfold maskedWeights interVec
  rw [List.length_zipWith, List.length_zipWith]
  omega

theorem maskedWeights_getD (catavg v : List (Option ℚ)) (w : List ℚ) (k : ℕ)
    (hk : k < v.length) (hlc : catavg.length = v.length) (hlw : w.length = v.length) :
    (maskedWeights w (interVec catavg v)).getD k 0 =
      if 0 < w.getD k 0 ∧ ((catavg.getD k none).isSome ∧ (v.getD k none).isSome)
      then w.getD k 0 else 0 := by
  have hkc : k < catavg.length := by omega
  have hkw : k < w.length := by omega
  have hiv : (interVec catavg v)[k]? = some (catavg[k].isSome && v[k].isSome) := by
    unfold interVec
    rw [zipWith_getElem?_eq, List.getElem?_eq_getElem hkc, List.getElem?_eq_getElem hk]
  have hm : (maskedWeights w (interVec catavg v))[k]? =
      some (if 0 < w[k] ∧ (catavg[k].isSome && v[k].isSome) = true then w[k] else 0) := by
    unfold maskedWeights
    rw [zipWith_getElem?_eq, List.getElem?_eq_getElem hkw, hiv]
  rw [getD_of_getElem? 0 hm, List.getD_eq_getElem _ _ hkw,
    List.getD_eq_getElem _ _ hkc, List.getD_eq_getElem _ _ hk]
  simp only [Bool.and_eq_true]

/-- C8: whenever the intersection of resolved categories between the running
vector and a leaf is non-empty (and, as `catwise_leaves` guarantees, every
category present in the leaf has a positive sample count), the anchor
`anchorIx` chosen by `avg_values_at_cat`'s merge step is itself in that
intersection and carries the largest sample weight in the leaf among all
intersecting categories. -/
theorem claim8 (catavg v : List (Option ℚ)) (w : List ℚ)
    (hlc : catavg.length = v.length) (hlw : w.length = v.length)
    (hpos : ∀ k, k < v.length → (v.getD k none).isSome → 0 < w.getD k 0)
    (k0 : ℕ) (hk0 : k0 < v.length)
    (hk0c : (catavg.getD k0 none).isSome) (hk0v : (v.getD k0 none).isSome) :
    anchorIx catavg v w < v.length ∧
    (catavg.getD (anchorIx catavg v w) none).isSome ∧
    (v.getD (anchorIx catavg v w) none).isSome ∧
    ∀ k, k < v.length → (catavg.getD k none).isSome → (v.getD k none).isSome →
      w.getD k 0 ≤ w.getD (anchorIx catavg v w) 0 := by
  unfold anchorIx
  set M := maskedWeights w (interVec catavg v) with hM
  have hlen : M.length = v.length := maskedWeights_length catavg v w hlc hlw
  have hMne : M ≠ [] := by
    intro hc
    rw [hc] at hlen
    simp at hlen
    omega
  obtain ⟨hix, hmax⟩ := np_argmax_spec M hMne
  have hixlt : np_argmax M < v.length := by omega
  have hk0m : M.getD k0 0 = w.getD k0 0 := by
    rw [hM, maskedWeights_getD catavg v w k0 hk0 hlc hlw,
      if_pos ⟨hpos k0 hk0 hk0v, hk0c, hk0v⟩]
  have h0pos : 0 < M.getD k0 0 := by rw [hk0m]; exact hpos k0 hk0 hk0v
  have hpos_ix : 0 < M.getD (np_argmax M) 0 :=
    lt_of_lt_of_le h0pos (hmax k0 (by omega))
  have hixm := maskedWeights_getD catavg v w (np_argmax M) hixlt hlc hlw
  rw [← hM] at hixm
  by_cases hcond : 0 < w.getD (np_argmax M) 0 ∧
      ((catavg.getD (np_argmax M) none).isSome ∧ (v.getD (np_argmax M) none).isSome)
  · have hval : M.getD (np_argmax M) 0 = w.getD (np_argmax M) 0 := by
      rw [hixm, if_pos hcond]
    refine ⟨hixlt, hcond.2.1, hcond.2.2, ?_⟩
    intro k hk hkc hkv
    have hkm := maskedWeights_getD catavg v w k hk hlc hlw
    rw [← hM] at hkm
    by_cases hkw : 0 < w.getD k 0
    · have hmk : M.getD k 0 = w.getD k 0 := by rw [hkm, if_pos ⟨hkw, hkc, hkv⟩]
      calc w.getD k 0 = M.getD k 0 := hmk.symm
        _ ≤ M.getD (np_argmax M) 0 := hmax k (by omega)
        _ = w.getD (np_argmax M) 0 := hval
    · push_neg at hkw
      exact le_trans hkw (le_of_lt hcond.1)
  · exfalso
    rw [hixm, if_neg hcond] at hpos_ix
    exact lt_irrefl 0 hpos_ix

theorem claim8_witness :
    anchorIx [some 1, some 2] [some 3, some 4] [1, 5] < 2 ∧
    (([some 1, some 2] : List (Option ℚ)).getD
      (anchorIx [some 1, some 2] [some 3, some 4] [1, 5]) none).isSome ∧
    (([some 3, some 4] : List (Option ℚ)).getD
      (anchorIx [some 1, some 2] [some 3, some 4] [1, 5]) none).isSome ∧
    ∀ k, k < 2 →
      (([some 1, some 2] : List (Option ℚ)).getD k none).isSome →
      (([some 3, some 4] : List (Option ℚ)).getD k none).isSome →
      ([1, 5] : List ℚ).getD k 0 ≤
        ([1, 5] : List ℚ).getD (anchorIx [some 1, some 2] [some 3, some 4] [1, 5]) 0 :=
  claim8 [some 1, some 2] [some 3, some 4] [1, 5] rfl rfl
    (by decide) 0 (by decide) (by decide) (by decide)

/-- C5, amended: re-merging a leaf does change resolved categories in general
(see the counterexample); what does hold is that the merge step never changes
the running vector at the anchor category it selects: re-referencing makes the
leaf's adjusted value there coincide with the running value, so the weighted
average is a fixed point there. -/
theorem claim5_amended (s : MergeState) (v : List (Option ℚ)) (w : List ℚ)
    (hlc : s.catavg.length = v.length) (hlw : s.weight.length = v.length)
    (hww : w.length = v.length)
    (hix : anchorIx s.catavg v w < v.length)
    (g : ℚ) (hc : s.catavg.getD (anchorIx s.catavg v w) none = some g)
    (a : ℚ) (hv : v.getD (anchorIx s.catavg v w) none = some a)
    (hpos : 0 < s.weight.getD (anchorIx s.catavg v w) 0
        + w.getD (anchorIx s.catavg v w) 0) :
    (mergeOneLeaf s v w).catavg.getD (anchorIx s.catavg v w) none =
      s.catavg.getD (anchorIx s.catavg v w) none := by
  set ix := anchorIx s.catavg v w with hixdef
  set f : Option ℚ → Option ℚ :=
    fun x => nanAdd (nanSub x (v.getD ix none)) (s.catavg.getD ix none) with hf
  have hixc : ix < s.catavg.length := by omega
  have hixw : ix < s.weight.length := by omega
  have hixww : ix < w.length := by omega
  have hvix : v[ix] = some a := by
    have hv2 := hv
    rw [List.getD_eq_getElem _ _ hix] at hv2
    exact hv2
  have hb : ix < (v.map f).length := by
    rw [List.length_map]
    exact hix
  have hadj : (v.map f)[ix]? = some (some (a - a + g)) := by
    rw [List.getElem?_map, List.getElem?_eq_getElem hix, hvix]
    simp only [hf, hv, hc, nanSub, nanAdd, Option.map_some]
    rfl
  have hadj2 : (v.map f)[ix] = some (a - a + g) :=
    Option.some_inj.mp ((List.getElem?_eq_getElem hb).symm.trans hadj)
  have hcg : s.catavg[ix] = some g := by
    have hc2 := hc
    rw [List.getD_eq_getElem _ _ hixc] at hc2
    exact hc2
  show (nanavg_vectors s.catavg (v.map f) s.weight w).getD ix none =
    s.catavg.getD ix none
  rw [getD_of_getElem? none
    (nanavg_vectors_getElem? s.catavg (v.map f) s.weight w ix hixc hb hixw hixww)]
  rw [hcg, hadj2, hc]
  simp only [navgSpec, Option.some.injEq]
  rw [List.getD_eq_getElem _ _ hixw, List.getD_eq_getElem _ _ hixww] at hpos
  rw [show zero_as_one (s.weight[ix] + w[ix]) = s.weight[ix] + w[ix] from
    if_neg (ne_of_gt hpos)]
  rw [show g * s.weight[ix] + (a - a + g) * w[ix] = g * (s.weight[ix] + w[ix]) by ring]
  rw [mul_div_assoc, div_self (ne_of_gt hpos), mul_one]

theorem claim5_amended_witness :
    (mergeOneLeaf ⟨[some 1, some 2], [1, 1]⟩ [some 3, some 4] [1, 5]).catavg.getD
        (anchorIx [some 1, some 2] [some 3, some 4] [1, 5]) none =
      ([some 1, some 2] : List (Option ℚ)).getD
        (anchorIx [some 1, some 2] [some 3, some 4] [1, 5]) none :=
  claim5_amended ⟨[some 1, some 2], [1, 1]⟩ [some 3, some 4] [1, 5] rfl rfl rfl
    (by decide) 2 (by decide) 4 (by decide)
    (by norm_num +decide [anchorIx, maskedWeights, interVec, np_argmax, npArgmaxAux])

theorem oval_getD (l : List (Option ℚ)) (k : ℕ) (h : (l.getD k none).isSome) :
    l.getD k none = some (oval l k) := by
  unfold oval
  cases hx : l.getD k none with
  | none => rw [hx] at h; simp at h
  | some q => simp [hx]

theorem npArgmaxAux_replicate (c : ℚ) :
    ∀ (m i bi : ℕ), npArgmaxAux (List.replicate m c) i (bi, c) = (bi, c)
  | 0, _, _ => rfl
  | m + 1, i, bi => by
      rw [List.replicate_succ]
      show npArgmaxAux (List.replicate m c) (i + 1)
        (if (bi, c).2 < c then (i, c) else (bi, c)) = (bi, c)
      rw [if_neg (lt_irrefl c)]
      exact npArgmaxAux_replicate c m (i + 1) bi

theorem np_argmax_replicate (n : ℕ) (c : ℚ) : np_argmax (List.replicate n c) = 0 := by
  cases n with
  | zero => rfl
  | succ n =>
    rw [List.replicate_succ]
    show (npArgmaxAux (List.replicate n c) 1 (0, c)).1 = 0
    rw [npArgmaxAux_replicate c n 1 0]

theorem maskedWeights_replicate (n : ℕ) (catavg v : List (Option ℚ)) (c : ℚ)
    (hc : 0 < c) (hlc : catavg.length = n) (hlv : v.length = n)
    (hcs : ∀ k, k < n → (catavg.getD k none).isSome)
    (hvs : ∀ k, k < n → (v.getD k none).isSome) :
    maskedWeights (List.replicate n c) (interVec catavg v) = List.replicate n c := by
  have hl1 : (maskedWeights (List.replicate n c) (interVec catavg v)).length = n := by
    unfold maskedWeights interVec
    rw [List.length_zipWith, List.length_zipWith, List.length_replicate]
    omega
  apply List.ext_getElem (by rw [hl1, List.length_replicate])
  intro k h1 h2
  have hkn : k < n := hl1 ▸ h1
  have hkc : k < catavg.length := by omega
  have hkv : k < v.length := by omega
  have hiv : (interVec catavg v)[k]? = some (catavg[k].isSome && v[k].isSome) := by
    unfold interVec
    rw [zipWith_getElem?_eq, List.getElem?_eq_getElem hkc, List.getElem?_eq_getElem hkv]
  have hkr : k < (List.replicate n c).length := by rw [List.length_replicate]; omega
  have hw : (List.replicate n c)[k]? = some c := by
    rw [List.getElem?_eq_getElem hkr, List.getElem_replicate]
  have htrue : (catavg[k].isSome && v[k].isSome) = true := by
    rw [Bool.and_eq_true]
    constructor
    · have hx := hcs k hkn
      rwa [List.getD_eq_getElem _ _ hkc] at hx
    · have hx := hvs k hkn
      rwa [List.getD_eq_getElem _ _ hkv] at hx
  have hm : (maskedWeights (List.replicate n c) (interVec catavg v))[k]? = some c := by
    unfold maskedWeights
    rw [zipWith_getElem?_eq, hw, hiv]
    simp [htrue, hc]
  rw [Option.some_inj.mp ((List.getElem?_eq_getElem h1).symm.trans hm),
    List.getElem_replicate]

theorem anchorIx_replicate (n : ℕ) (catavg v : List (Option ℚ)) (c : ℚ)
    (hc : 0 < c) (hlc : catavg.length = n) (hlv : v.length = n)
    (hcs : ∀ k, k < n → (catavg.getD k none).isSome)
    (hvs : ∀ k, k < n → (v.getD k none).isSome) :
    anchorIx catavg v (List.replicate n c) = 0 := by
  unfold anchorIx
  rw [maskedWeights_replicate n catavg v c hc hlc hlv hcs hvs, np_argmax_replicate]

theorem nanavg_vectors_length_of (a b : List (Option ℚ)) (wa wb : List ℚ) (n : ℕ)
    (ha : a.length = n) (hb : b.length = n) (hwa : wa.length = n)
    (hwb : wb.length = n) : (nanavg_vectors a b wa wb).length = n := by
  simp [nanavg_vectors, scaleVec, List.length_zipWith, List.length_zip,
    ha, hb, hwa, hwb]

theorem oval_of_getD {l : List (Option ℚ)} {k : ℕ} {q : ℚ}
    (h : l.getD k none = some q) : oval l k = q := by
  unfold oval
  rw [h]
  rfl

theorem mergeOne_replicate_spec (n : ℕ) (hn : 0 < n) (s : MergeState)
    (hs : InvSt n s) (v : List (Option ℚ)) (hv : FullVec n v) (c : ℚ) (hc : 0 < c) :
    InvSt n (mergeOneLeaf s v (List.replicate n c)) ∧
    (∀ k, k < n → (mergeOneLeaf s v (List.replicate n c)).weight.getD k 0
        = s.weight.getD k 0 + c) ∧
    (∀ k, k < n →
      oval (mergeOneLeaf s v (List.replicate n c)).catavg k * (s.weight.getD k 0 + c)
        = oval s.catavg k * s.weight.getD k 0
          + (oval v k - oval v 0 + oval s.catavg 0) * c) := by
  obtain ⟨⟨hclen, hcsome⟩, hwlen, hwnn⟩ := hs
  obtain ⟨hvlen, hvsome⟩ := hv
  have hanch : anchorIx s.catavg v (List.replicate n c) = 0 :=
    anchorIx_replicate n s.catavg v c hc hclen hvlen hcsome hvsome
  have hvd0 : v.getD 0 none = some (oval v 0) := oval_getD v 0 (hvsome 0 hn)
  have hcd0 : s.catavg.getD 0 none = some (oval s.catavg 0) :=
    oval_getD s.catavg 0 (hcsome 0 hn)
  have hmerge : mergeOneLeaf s v (List.replicate n c) =
      { catavg := nanavg_vectors s.catavg
          (v.map (fun x => nanAdd (nanSub x (some (oval v 0)))
            (some (oval s.catavg 0))))
          s.weight (List.replicate n c)
        weight := List.zipWith (fun u d => u + d) s.weight (List.replicate n c) } := by
    simp only [mergeOneLeaf]
    rw [hanch, hvd0, hcd0]
  have hceq : (mergeOneLeaf s v (List.replicate n c)).catavg =
      nanavg_vectors s.catavg
        (v.map (fun x => nanAdd (nanSub x (some (oval v 0)))
          (some (oval s.catavg 0))))
        s.weight (List.replicate n c) := by rw [hmerge]
  have hweq : (mergeOneLeaf s v (List.replicate n c)).weight =
      List.zipWith (fun u d => u + d) s.weight (List.replicate n c) := by
    rw [hmerge]
  have hmlen : (v.map (fun x => nanAdd (nanSub x (some (oval v 0)))
      (some (oval s.catavg 0)))).length = n := by rw [List.length_map]; omega
  have hrlen : (List.replicate n c).length = n := List.length_replicate n c
  have hadjk : ∀ k, k < n →
      (v.map (fun x => nanAdd (nanSub x (some (oval v 0)))
        (some (oval s.catavg 0))))[k]? =
      some (some (oval v k - oval v 0 + oval s.catavg 0)) := by
    intro k hk
    have hkv : k < v.length := by omega
    rw [List.getElem?_map, List.getElem?_eq_getElem hkv]
    have hvk : v[k] = some (oval v k) := by
      have hx := oval_getD v k (hvsome k hk)
      rwa [List.getD_eq_getElem _ _ hkv] at hx
    rw [hvk]
    rfl
  have hwk : ∀ k, k < n →
      (List.zipWith (fun u d => u + d) s.weight (List.replicate n c)).getD k 0
        = s.weight.getD k 0 + c := by
    intro k hk
    have hkw : k < s.weight.length := by omega
    have hkr : k < (List.replicate n c).length := by omega
    apply getD_of_getElem?
    rw [zipWith_getElem?_eq, List.getElem?_eq_getElem hkw, List.getElem?_eq_getElem hkr,
      List.getElem_replicate, List.getD_eq_getElem _ _ hkw]
  have hwlen2 : (List.zipWith (fun u d => u + d) s.weight (List.replicate n c)).length
      = n := by rw [List.length_zipWith, hrlen, hwlen]; omega
  have hcatk : ∀ k, k < n →
      (nanavg_vectors s.catavg
        (v.map (fun x => nanAdd (nanSub x (some (oval v 0)))
          (some (oval s.catavg 0))))
        s.weight (List.replicate n c)).getD k none =
      some ((oval s.catavg k * s.weight.getD k 0
        + (oval v k - oval v 0 + oval s.catavg 0) * c) / (s.weight.getD k 0 + c)) := by
    intro k hk
    have hkc : k < s.catavg.length := by omega
    have hkm : k < (v.map (fun x => nanAdd (nanSub x (some (oval v 0)))
        (some (oval s.catavg 0)))).length := by omega
    have hkw : k < s.weight.length := by omega
    have hkr : k < (List.replicate n c).length := by omega
    apply getD_of_getElem?
    rw [nanavg_vectors_getElem? _ _ _ _ k hkc hkm hkw hkr]
    have hck : s.catavg[k] = some (oval s.catavg k) := by
      have hx := oval_getD s.catavg k (hcsome k hk)
      rwa [List.getD_eq_getElem _ _ hkc] at hx
    have hadjg : (v.map (fun x => nanAdd (nanSub x (some (oval v 0)))
        (some (oval s.catavg 0))))[k] = some (oval v k - oval v 0 + oval s.catavg 0) :=
      Option.some_inj.mp ((List.getElem?_eq_getElem hkm).symm.trans (hadjk k hk))
    rw [hck, hadjg]
    have hrk : (List.replicate n c)[k] = c := List.getElem_replicate ..
    rw [hrk]
    simp only [navgSpec, Option.some.injEq]
    have hpos : (0 : ℚ) < s.weight[k] + c := by
      have := hwnn k hk
      rw [List.getD_eq_getElem _ _ hkw] at this
      linarith
    rw [show zero_as_one (s.weight[k] + c) = s.weight[k] + c from if_neg (ne_of_gt hpos)]
    rw [List.getD_eq_getElem _ _ hkw]
  have hdenpos : ∀ k, k < n → (0 : ℚ) < s.weight.getD k 0 + c := by
    intro k hk
    have := hwnn k hk
    linarith
  refine ⟨⟨⟨?_, ?_⟩, ?_, ?_⟩, ?_, ?_⟩
  · rw [hceq]
    exact nanavg_vectors_length_of _ _ _ _ n hclen hmlen hwlen hrlen
  · intro k hk
    rw [hceq, hcatk k hk]
    rfl
  · rw [hweq]
    exact hwlen2
  · intro k hk
    rw [hweq, hwk k hk]
    have := hwnn k hk
    linarith
  · intro k hk
    rw [hweq]
    exact hwk k hk
  · intro k hk
    rw [hceq, oval_of_getD (hcatk k hk),
      div_mul_cancel₀ _ (ne_of_gt (hdenpos k hk))]

theorem mergeFold_spec (n : ℕ) (hn : 0 < n) :
    ∀ (l : List (List (Option ℚ) × ℚ)) (s : MergeState), InvSt n s →
      (∀ p ∈ l, FullVec n p.1 ∧ 0 < p.2) →
      InvSt n (mergeFold n s l) ∧
      oval (mergeFold n s l).catavg 0 = oval s.catavg 0 ∧
      (∀ k, k < n →
        (mergeFold n s l).weight.getD k 0 = s.weight.getD k 0 + wSum l ∧
        oval (mergeFold n s l).catavg k * (s.weight.getD k 0 + wSum l)
          = oval s.catavg k * s.weight.getD k 0 + sSum (oval s.catavg 0) k l)
  | [], s, hs, _ => by
      refine ⟨hs, rfl, ?_⟩
      intro k hk
      constructor
      · simp [mergeFold, wSum]
      · simp [mergeFold, wSum, sSum]
  | p :: l, s, hs, hl => by
      obtain ⟨hfv, hpc⟩ := hl p (List.mem_cons_self p l)
      have step := mergeOne_replicate_spec n hn s hs p.1 hfv p.2 hpc
      have ih := mergeFold_spec n hn l (mergeOneLeaf s p.1 (List.replicate n p.2))
        step.1 (fun q hq => hl q (List.mem_cons_of_mem p hq))
      have hfold : mergeFold n s (p :: l)
          = mergeFold n (mergeOneLeaf s p.1 (List.replicate n p.2)) l := rfl
      have hW0 : 0 ≤ s.weight.getD 0 0 := hs.2.2 0 hn
      have ha0 : oval (mergeOneLeaf s p.1 (List.replicate n p.2)).catavg 0
          = oval s.catavg 0 := by
        have h00 := step.2.2 0 hn
        have hne : s.weight.getD 0 0 + p.2 ≠ 0 := ne_of_gt (by linarith)
        have h00x : oval (mergeOneLeaf s p.1 (List.replicate n p.2)).catavg 0
            * (s.weight.getD 0 0 + p.2)
            = oval s.catavg 0 * (s.weight.getD 0 0 + p.2) := by
          rw [h00]
          ring
        exact mul_right_cancel₀ hne h00x
      rw [hfold]
      refine ⟨ih.1, ?_, ?_⟩
      · rw [ih.2.1, ha0]
      · intro k hk
        obtain ⟨ihw, ihp⟩ := ih.2.2 k hk
        have hw' := step.2.1 k hk
        have hp' := step.2.2 k hk
        have hws : wSum (p :: l) = p.2 + wSum l := by simp [wSum]
        have hss : sSum (oval s.catavg 0) k (p :: l)
            = (oval p.1 k - oval p.1 0 + oval s.catavg 0) * p.2
              + sSum (oval s.catavg 0) k l := by simp [sSum]
        constructor
        · rw [ihw, hw', hws]
          ring
        · calc oval (mergeFold n (mergeOneLeaf s p.1 (List.replicate n p.2)) l).catavg k
              * (s.weight.getD k 0 + wSum (p :: l))
              = oval (mergeFold n (mergeOneLeaf s p.1 (List.replicate n p.2)) l).catavg k
                * ((mergeOneLeaf s p.1 (List.replicate n p.2)).weight.getD k 0 + wSum l) := by
                rw [hw', hws]
                ring
            _ = oval (mergeOneLeaf s p.1 (List.replicate n p.2)).catavg k
                * (mergeOneLeaf s p.1 (List.replicate n p.2)).weight.getD k 0
                + sSum (oval (mergeOneLeaf s p.1 (List.replicate n p.2)).catavg 0) k l := ihp
            _ = oval (mergeOneLeaf s p.1 (List.replicate n p.2)).catavg k
                * (s.weight.getD k 0 + p.2) + sSum (oval s.catavg 0) k l := by
                rw [hw', ha0]
            _ = (oval s.catavg k * s.weight.getD k 0
                + (oval p.1 k - oval p.1 0 + oval s.catavg 0) * p.2)
                + sSum (oval s.catavg 0) k l := by rw [hp']
            _ = oval s.catavg k * s.weight.getD k 0
                + sSum (oval s.catavg 0) k (p :: l) := by
                rw [hss]
                ring

theorem mergePass_full (n : ℕ) (hn : 0 < n)
    (deltas : List (List (Option ℚ))) (counts : List (List ℚ)) :
    ∀ (work : List ℕ) (s : MergeState), InvSt n s →
      (∀ j ∈ work, FullVec n (deltas.getD j []) ∧
        ∃ c : ℚ, 0 < c ∧ counts.getD j [] = List.replicate n c) →
      mergePass deltas counts s work =
        (work.foldl (fun t j => mergeOneLeaf t (deltas.getD j []) (counts.getD j [])) s,
         work)
  | [], s, _, _ => rfl
  | j :: rest, s, hs, hw => by
      obtain ⟨hfv, c, hc, hcnt⟩ := hw j (List.mem_cons_self j rest)
      have hs1 : InvSt n (mergeOneLeaf s (deltas.getD j []) (counts.getD j [])) := by
        rw [hcnt]
        exact (mergeOne_replicate_spec n hn s hs _ hfv c hc).1
      have hint : (interVec s.catavg (deltas.getD j [])).any id = true := by
        rw [List.any_eq_true]
        refine ⟨true, ?_, rfl⟩
        have hb1 : 0 < s.catavg.length := by rw [hs.1.1]; omega
        have hb2 : 0 < (deltas.getD j []).length := by rw [hfv.1]; omega
        have h1 : s.catavg[0].isSome = true := by
          have hx := hs.1.2 0 hn
          rwa [List.getD_eq_getElem _ _ hb1] at hx
        have h2 : (deltas.getD j [])[0].isSome = true := by
          have hx := hfv.2 0 hn
          rwa [List.getD_eq_getElem _ _ hb2] at hx
        have h0 : (interVec s.catavg (deltas.getD j []))[0]? = some true := by
          unfold interVec
          rw [zipWith_getElem?_eq, List.getElem?_eq_getElem hb1,
            List.getElem?_eq_getElem hb2]
          dsimp only
          rw [h1, h2]
          rfl
        exact List.getElem?_mem h0
      have ihres := mergePass_full n hn deltas counts rest
        (mergeOneLeaf s (deltas.getD j []) (counts.getD j [])) hs1
        (fun q hq => hw q (List.mem_cons_of_mem j hq))
      simp only [mergePass]
      rw [if_pos hint, ihres]
      rfl

theorem mergeLoop_full (n : ℕ) (hn : 0 < n)
    (deltas : List (List (Option ℚ))) (counts : List (List ℚ))
    (fuel : ℕ) (work : List ℕ) (s : MergeState) (hs : InvSt n s)
    (hw : ∀ j ∈ work, FullVec n (deltas.getD j []) ∧
        ∃ c : ℚ, 0 < c ∧ counts.getD j [] = List.replicate n c) :
    mergeLoop deltas counts (fuel + 1) s work =
      (work.foldl (fun t j => mergeOneLeaf t (deltas.getD j []) (counts.getD j [])) s,
       []) := by
  by_cases hne : work = []
  · subst hne
    simp [mergeLoop]
  · simp only [mergeLoop]
    rw [if_neg hne, mergePass_full n hn deltas counts work s hs hw]
    dsimp only
    rw [if_neg hne]
    have hfilter : work.filter (fun j => decide (¬ j ∈ work)) = [] := by
      rw [List.filter_eq_nil]
      intro a ha
      simp [ha]
    rw [hfilter]
    cases fuel <;> simp [mergeLoop]

theorem foldIdx :
    ∀ (dcols : List (List (Option ℚ))) (ccols : List (List ℚ)) (k : ℕ)
      (D : List (List (Option ℚ))) (C : List (List ℚ)) (s : MergeState),
      D.drop k = dcols → C.drop k = ccols → ccols.length = dcols.length →
      (List.range' k dcols.length).foldl
          (fun t j => mergeOneLeaf t (D.getD j []) (C.getD j [])) s
        = (dcols.zip ccols).foldl (fun t p => mergeOneLeaf t p.1 p.2) s
  | [], ccols, k, D, C, s => by
      intro _ _ hlen
      have : ccols = [] := List.length_eq_zero.mp (by simpa using hlen)
      subst this
      rfl
  | d :: ds, [], k, D, C, s => by
      intro _ _ hlen
      simp at hlen
  | d :: ds, c :: cs, k, D, C, s => by
      intro hD hC hlen
      have hDk : D[k]? = some d := by
        have h0 : (D.drop k)[0]? = some d := by rw [hD]; simp
        rw [List.getElem?_drop] at h0
        simpa using h0
      have hCk : C[k]? = some c := by
        have h0 : (C.drop k)[0]? = some c := by rw [hC]; simp
        rw [List.getElem?_drop] at h0
        simpa using h0
      have hD2 : D.drop (k + 1) = ds := by rw [← List.tail_drop, hD]; rfl
      have hC2 : C.drop (k + 1) = cs := by rw [← List.tail_drop, hC]; rfl
      rw [show (d :: ds).length = ds.length + 1 from rfl, List.range'_succ,
        List.foldl_cons, List.zip_cons_cons, List.foldl_cons,
        getD_of_getElem? [] hDk, getD_of_getElem? [] hCk]
      exact foldIdx ds cs (k + 1) D C _ hD2 hC2 (by simpa using hlen)

theorem avg_full_eval (n : ℕ) (hn : 0 < n) (d0 : List (Option ℚ)) (w0 : List ℚ)
    (m : List (List (Option ℚ) × ℚ))
    (hd0 : FullVec n d0) (hw0len : w0.length = n)
    (hw0 : ∀ k, k < n → 0 ≤ w0.getD k 0)
    (hm : ∀ p ∈ m, FullVec n p.1 ∧ 0 < p.2) :
    avg_values_at_cat (d0 :: m.map (fun p => p.1))
        (w0 :: m.map (fun p => List.replicate n p.2)) 3
      = ((mergeFold n ⟨d0, w0⟩ m).catavg, (mergeFold n ⟨d0, w0⟩ m).weight, 0) := by
  have hs0 : InvSt n (⟨d0, w0⟩ : MergeState) := ⟨hd0, hw0len, hw0⟩
  set D := d0 :: m.map (fun p => p.1) with hD
  set C := w0 :: m.map (fun p => List.replicate n p.2) with hC
  have hDlen : D.length = m.length + 1 := by rw [hD]; simp
  have hwork : ∀ j ∈ List.range' 1 m.length,
      FullVec n (D.getD j []) ∧
      ∃ c : ℚ, 0 < c ∧ C.getD j [] = List.replicate n c := by
    intro j hj
    rw [List.mem_range'_1] at hj
    obtain ⟨t, rfl⟩ : ∃ t, j = t + 1 := ⟨j - 1, by omega⟩
    have htm : t < m.length := by omega
    have hmt := hm m[t] (List.getElem_mem htm)
    constructor
    · rw [hD, List.getD_cons_succ]
      have hmap : (m.map (fun p => p.1)).getD t [] = m[t].1 := by
        apply getD_of_getElem?
        rw [List.getElem?_map, List.getElem?_eq_getElem htm]
        rfl
      rw [hmap]
      exact hmt.1
    · refine ⟨m[t].2, hmt.2, ?_⟩
      rw [hC, List.getD_cons_succ]
      apply getD_of_getElem?
      rw [List.getElem?_map, List.getElem?_eq_getElem htm]
      rfl
  simp only [avg_values_at_cat]
  have hwlen : D.length - 1 = m.length := by omega
  rw [hwlen]
  have hD0 : D.getD 0 [] = d0 := by rw [hD]; rfl
  have hC0 : C.getD 0 [] = w0 := by rw [hC]; rfl
  rw [hD0, hC0, show (3 : ℕ) = 2 + 1 from rfl,
    mergeLoop_full n hn D C 2 (List.range' 1 m.length) ⟨d0, w0⟩ hs0 hwork]
  dsimp only
  have hzip := foldIdx (m.map (fun p => p.1)) (m.map (fun p => List.replicate n p.2))
    1 D C ⟨d0, w0⟩ (by rw [hD]; rfl) (by rw [hC]; rfl) (by simp)
  rw [List.length_map] at hzip
  rw [hzip, List.zip_map', List.foldl_map]
  rfl

/-- C1, amended: for leaves with fully overlapping categories the merge order
does matter in general (see the counterexample: unequal weights select
different anchor categories).  When additionally every merged leaf carries the
same positive sample weight for all of its categories — so each merge anchors
at category 0 and the running value there never moves — `avg_values_at_cat`
computes the exact weight-accumulating average of the re-referenced columns,
and any processing order of the merged leaves yields the same final global
vector and weights. -/
theorem claim1_amended (n : ℕ) (hn : 0 < n) (d0 : List (Option ℚ)) (w0 : List ℚ)
    (l l2 : List (List (Option ℚ) × ℚ)) (hperm : l.Perm l2)
    (hd0 : FullVec n d0) (hw0len : w0.length = n)
    (hw0 : ∀ k, k < n → 0 ≤ w0.getD k 0)
    (hl : ∀ p ∈ l, FullVec n p.1 ∧ 0 < p.2) :
    avg_values_at_cat (d0 :: l.map (fun p => p.1))
        (w0 :: l.map (fun p => List.replicate n p.2)) 3
      = avg_values_at_cat (d0 :: l2.map (fun p => p.1))
        (w0 :: l2.map (fun p => List.replicate n p.2)) 3 := by
  have hl2 : ∀ p ∈ l2, FullVec n p.1 ∧ 0 < p.2 :=
    fun p hp => hl p (hperm.mem_iff.mpr hp)
  rw [avg_full_eval n hn d0 w0 l hd0 hw0len hw0 hl,
    avg_full_eval n hn d0 w0 l2 hd0 hw0len hw0 hl2]
  rcases eq_or_ne l [] with rfl | hlne
  · have : l2 = [] := (hperm.symm).eq_nil
    subst this
    rfl
  · have hs0 : InvSt n (⟨d0, w0⟩ : MergeState) := ⟨hd0, hw0len, hw0⟩
    have s1 := mergeFold_spec n hn l ⟨d0, w0⟩ hs0 hl
    have s2 := mergeFold_spec n hn l2 ⟨d0, w0⟩ hs0 hl2
    have hcav : (⟨d0, w0⟩ : MergeState).catavg = d0 := rfl
    have hwv : (⟨d0, w0⟩ : MergeState).weight = w0 := rfl
    rw [hcav, hwv] at s1 s2
    have hwsum : wSum l = wSum l2 := by
      unfold wSum
      exact (hperm.map (fun p => p.2)).sum_eq
    have hssum : ∀ k, sSum (oval d0 0) k l = sSum (oval d0 0) k l2 := by
      intro k
      unfold sSum
      exact (hperm.map (fun p => (oval p.1 k - oval p.1 0 + oval d0 0) * p.2)).sum_eq
    have hwpos : 0 < wSum l := by
      unfold wSum
      apply List.sum_pos
      · intro q hq
        obtain ⟨p, hp, rfl⟩ := List.mem_map.mp hq
        exact (hl p hp).2
      · simpa using hlne
    have hden : ∀ k, k < n → (0 : ℚ) < w0.getD k 0 + wSum l := by
      intro k hk
      have := hw0 k hk
      linarith
    have hcat : (mergeFold n ⟨d0, w0⟩ l).catavg = (mergeFold n ⟨d0, w0⟩ l2).catavg := by
      apply List.ext_getElem
      · rw [s1.1.1.1, s2.1.1.1]
      · intro k hk1 hk2
        have hkn : k < n := by rw [← s1.1.1.1]; exact hk1
        have p1 := (s1.2.2 k hkn).2
        have p2 := (s2.2.2 k hkn).2
        rw [← hwsum, ← hssum k] at p2
        have hv : oval (mergeFold n ⟨d0, w0⟩ l).catavg k
            = oval (mergeFold n ⟨d0, w0⟩ l2).catavg k :=
          mul_right_cancel₀ (ne_of_gt (hden k hkn)) (p1.trans p2.symm)
        have q1 := oval_getD _ k (s1.1.1.2 k hkn)
        have q2 := oval_getD _ k (s2.1.1.2 k hkn)
        rw [List.getD_eq_getElem _ _ hk1] at q1
        rw [List.getD_eq_getElem _ _ hk2] at q2
        rw [q1, q2, hv]
    have hwt : (mergeFold n ⟨d0, w0⟩ l).weight = (mergeFold n ⟨d0, w0⟩ l2).weight := by
      apply List.ext_getElem
      · rw [s1.1.2.1, s2.1.2.1]
      · intro k hk1 hk2
        have hkn : k < n := by rw [← s1.1.2.1]; exact hk1
        have e1 := (s1.2.2 k hkn).1
        have e2 := (s2.2.2 k hkn).1
        rw [← List.getD_eq_getElem _ (0 : ℚ) hk1, ← List.getD_eq_getElem _ (0 : ℚ) hk2,
          e1, e2, hwsum]
    rw [hcat, hwt]

theorem claim1_amended_witness :
    avg_values_at_cat [[some 0, some 10], [some 0, some 2], [some 0, some 4]]
        [[7, 7], [2, 2], [3, 3]] 3
      = avg_values_at_cat [[some 0, some 10], [some 0, some 4], [some 0, some 2]]
        [[7, 7], [3, 3], [2, 2]] 3 :=
  claim1_amended 2 (by decide) [some 0, some 10] [7, 7]
    [([some 0, some 2], 2), ([some 0, some 4], 3)]
    [([some 0, some 4], 3), ([some 0, some 2], 2)]
    (List.Perm.swap ([some 0, some 4], 3) ([some 0, some 2], 2) [])
    ⟨rfl, by decide⟩ rfl (by decide)
    (by
      intro p hp
      rcases List.mem_cons.mp hp with rfl | hp
      · exact ⟨⟨rfl, by decide⟩, by decide⟩
      · rcases List.mem_cons.mp hp with rfl | hp
        · exact ⟨⟨rfl, by decide⟩, by decide⟩
        · simp at hp)
